import Mathlib

/-!
Verification development for the Office Document Translator pipeline
(translator.py).  Strings are modelled as lists of characters; the
functions below are shallow embeddings of the corresponding Python
functions, keeping their names where possible.
-/

namespace OfficeTranslator

/-- Characters treated as whitespace by Python's str.split() / str.strip()
and by the regex class \s (ASCII range). -/
def isPySpace (c : Char) : Bool :=
  c = ' ' || c = '\t' || c = '\n' || c = '\r' || c = '\x0b' || c = '\x0c'

/-- Helper for Python str.split() with no arguments: the accumulator holds
the current (reversed) token. -/
def pySplitAux : List Char → List Char → List (List Char)
  | [], acc => if acc = [] then [] else [acc.reverse]
  | c :: s, acc =>
      if isPySpace c then
        if acc = [] then pySplitAux s [] else acc.reverse :: pySplitAux s []
      else pySplitAux s (c :: acc)

/-- Python str.split() with no arguments: split on runs of whitespace,
dropping empty tokens. -/
def pySplitWs (s : List Char) : List (List Char) :=
  pySplitAux s []

/-- Python ' '.join(tokens). -/
def joinSp : List (List Char) → List Char
  | [] => []
  | [t] => t
  | t :: t2 :: ts => t ++ ' ' :: joinSp (t2 :: ts)

/-- Remove trailing characters satisfying p (Python str.rstrip). -/
def dropTrailing (p : Char → Bool) : List Char → List Char
  | [] => []
  | c :: s =>
      if dropTrailing p s = [] && p c then [] else c :: dropTrailing p s

/-- Python str.strip(): drop leading and trailing whitespace. -/
def pyStrip (s : List Char) : List Char :=
  dropTrailing isPySpace (s.dropWhile isPySpace)

/-- clean_text from translator.py lines 232-245:
' '.join(text.split()) followed by .strip(). -/
def clean_text (s : List Char) : List Char :=
  pyStrip (joinSp (pySplitWs s))

/-- One character of the regex class [\d\s,.-]. -/
def isNumFormatChar (c : Char) : Bool :=
  c.isDigit || isPySpace c || c = ',' || c = '.' || c = '-'

/-- Model of re.match applied with pattern [\d\s,.-]+ anchored on both sides:
the string is nonempty and every character is in the class.  (In Python the
final anchor may also match before a trailing newline, but a newline is
itself in \s, so the two formulations agree.) -/
def matchesNumericOnly (s : List Char) : Bool :=
  !s.isEmpty && s.all isNumFormatChar

/-- Python text.startswith of a single equals sign. -/
def startsWithEqSign : List Char → Bool
  | [] => false
  | c :: _ => c = '='

/-- The three rejection checks should_translate performs after normalizing
(translator.py lines 258-264), applied to the already-cleaned text. -/
def shouldTranslateChecks (t : List Char) : Bool :=
  if t.isEmpty || t.length < 2 then false
  else if matchesNumericOnly t then false
  else if startsWithEqSign t then false
  else true

/-- should_translate from translator.py lines 247-264: it first replaces its
argument by clean_text(argument) and then runs the checks on that. -/
def should_translate (s : List Char) : Bool :=
  shouldTranslateChecks (clean_text s)

/-- The eligibility rejection condition exactly as the specification words
it: the length test is on the normalized form, but the numeric-regex test
and the leading-equals test are on the raw string s itself. -/
def specRejects (s : List Char) : Bool :=
  decide ((clean_text s).length < 2) || matchesNumericOnly s || startsWithEqSign s

/-- First occurrence of the delimiter made of three bar characters:
returns the segment before it and the remainder after it. -/
def findDelim : List Char → Option (List Char × List Char)
  | '|' :: '|' :: '|' :: post => some ([], post)
  | c :: rest =>
      match findDelim rest with
      | none => none
      | some pq => some (c :: pq.1, pq.2)
  | [] => none

/-- Fuelled splitting on the three-bar delimiter. -/
def splitDelimFuel : Nat → List Char → List (List Char)
  | 0, s => [s]
  | fuel + 1, s =>
      match findDelim s with
      | none => [s]
      | some pq => pq.1 :: splitDelimFuel fuel pq.2

/-- Python translated_text.split of the three-bar delimiter
(translator.py line 439). -/
def splitDelim (s : List Char) : List (List Char) :=
  splitDelimFuel s.length s

/-- Segment-count reconciliation, translator.py lines 446-453: pad a short
reply with the corresponding trailing original texts, truncate a long one. -/
def reconcileParts (texts parts : List (List Char)) : List (List Char) :=
  if parts.length < texts.length then parts ++ texts.drop parts.length
  else parts.take texts.length

/-- Outcome of one translate_batch run: the returned list, the number of
API call attempts made, and the backoff sleeps performed (in seconds). -/
structure BatchRun where
  result : List (List Char)
  attempts : Nat
  backoffs : List Nat
deriving DecidableEq

/-- max_retries from translator.py line 337. -/
def maxRetries : Nat := 3

/-- The retry loop of translate_batch (translator.py lines 335-471).
provider k is the text content extracted from the reply to the (k+1)-th API
call; none models an exception or a reply from which no content path yields
anything.  Extracted empty content also raises (line 434) and is treated as
a failure below.  r mirrors the Python variable retries; the fuel bounds the
loop, maxRetries+1 iterations always suffice. -/
def runBatchLoop (texts : List (List Char)) (provider : Nat → Option (List Char)) :
    Nat → Nat → BatchRun
  | _, 0 => ⟨texts, 0, []⟩
  | r, fuel + 1 =>
      let failed : BatchRun :=
        if r + 1 > maxRetries then ⟨texts, 1, []⟩
        else
          let rest := runBatchLoop texts provider (r + 1) fuel
          ⟨rest.result, rest.attempts + 1, (r + 1) * 2 :: rest.backoffs⟩
      match provider r with
      | none => failed
      | some reply =>
          if reply.isEmpty then failed
          else ⟨reconcileParts texts (splitDelim reply), 1, []⟩

/-- translate_batch from translator.py lines 266-471, with the API client
abstracted into the provider function. -/
def translate_batch (texts : List (List Char)) (provider : Nat → Option (List Char)) :
    BatchRun :=
  if texts.isEmpty then ⟨[], 0, []⟩
  else runBatchLoop texts provider 0 (maxRetries + 1)

/-- An extracted element: location reference plus original text. -/
structure Fragment where
  loc : Nat
  text : List Char
deriving DecidableEq

/-- The merge step of _process_with_hybrid_approach (translator.py lines
850-886): the baseline python-pptx elements, then the COM elements (only on
Windows with COM available), then the XML elements, combined by plain list
extension. -/
def hybridMerge (basic com xml : List Fragment) (hasCom hasXml : Bool) :
    List Fragment :=
  (basic ++ (if hasCom then com else [])) ++ (if hasXml then xml else [])

/-- The command-line situations the entry point distinguishes for its exit
code: single-file mode records whether the path exists and whether
processing returned an output path; directory mode records whether the
named path is a directory and how many files succeeded and failed. -/
inductive CliMode where
  | singleFile (pathExists : Bool) (processOk : Bool)
  | directory (isDir : Bool) (nSucc nFail : Nat)

/-- Exit-code logic of main for the explicit --file / --dir branches
(translator.py lines 2606-2653): in directory mode the per-file outcome
counts are only printed, never returned; the commented-out return at line
2624 makes every existing-directory run end at the final return 0. -/
def mainExitCode : CliMode → Nat
  | .singleFile ex ok => if ex then (if ok then 0 else 1) else 1
  | .directory isDir _ _ => if isDir then 0 else 1

/-- Scan a reversed file name for its last dot: returns the characters
after the last dot (still reversed as scanned) and the rest before it. -/
def extSplitRev : List Char → Option (List Char × List Char)
  | [] => none
  | c :: rest =>
      if c = '.' then some ([], rest)
      else
        match extSplitRev rest with
        | none => none
        | some pq => some (c :: pq.1, pq.2)

/-- os.path.splitext restricted to a bare file name: split off the
extension at the last dot, unless only dots precede that dot. -/
def pySplitExt (name : List Char) : List Char × List Char :=
  match extSplitRev name.reverse with
  | none => (name, [])
  | some pq =>
      if pq.2.all (fun c => c = '.') then (name, [])
      else (pq.2.reverse, '.' :: pq.1.reverse)

/-- Output file name of process_excel_file (translator.py line 503):
stem plus "-translated" plus the original extension. -/
def excelOutputName (filename : List Char) : List Char :=
  (pySplitExt filename).1 ++ "-translated".toList ++ (pySplitExt filename).2

/-- Output path of process_excel_file (translator.py lines 495-503): always
script-dir/output/<stem>-translated<ext>.  The --output-dir argument is
accepted by main but never forwarded to the processors (lines 2566-2576),
so it is an unused parameter here. -/
def excelOutputPath (scriptDir : List Char) (_outputDirArg : Option (List Char))
    (filename : List Char) : List Char :=
  scriptDir ++ "/output".toList ++ '/' :: excelOutputName filename

/-- Lower-casing of a file extension (ext.lower() in get_file_type). -/
def toLowerList (s : List Char) : List Char :=
  s.map Char.toLower

/-- Document types distinguished by translator.py. -/
inductive DocType where
  | EXCEL
  | WORD
  | POWERPOINT
  | UNKNOWN
deriving DecidableEq

/-- get_file_type from translator.py lines 211-230. -/
def get_file_type (name : List Char) : DocType :=
  let ext := toLowerList (pySplitExt name).2
  if ext = ".xlsx".toList ∨ ext = ".xls".toList ∨ ext = ".xlsm".toList then .EXCEL
  else if ext = ".docx".toList ∨ ext = ".doc".toList then .WORD
  else if ext = ".pptx".toList ∨ ext = ".ppt".toList then .POWERPOINT
  else .UNKNOWN

/-- Whether single-file mode dispatches the name to some processor
(process_file, lines 2380-2393: only the UNKNOWN type is rejected). -/
def processableSingleFile (name : List Char) : Bool :=
  get_file_type name != DocType.UNKNOWN

/-- Does the first list appear at the start of the second one? -/
def listBeginsWith : List Char → List Char → Bool
  | [], _ => true
  | _ :: _, [] => false
  | a :: as, b :: bs => a == b && listBeginsWith as bs

/-- Does the first list appear at the end of the second one? -/
def endsWith (e name : List Char) : Bool :=
  listBeginsWith e.reverse name.reverse

/-- The glob patterns of process_directory (translator.py lines 2414-2419)
reduced to the suffix each one requires. -/
def dirModeExts : List (List Char) :=
  [".xlsx".toList, ".xls".toList, ".docx".toList, ".doc".toList,
   ".pptx".toList, ".ppt".toList]

/-- Whether directory mode's glob calls select a file of this name. -/
def selectedInDirMode (name : List Char) : Bool :=
  dirModeExts.any (fun e => endsWith e name)

/-- batch_size from translator.py line 658. -/
def batchSize : Nat := 50

/-- Fuelled chunking of the text list into batches of at most batchSize. -/
def chunkFuel : Nat → List (List Char) → List (List (List Char))
  | 0, _ => []
  | _, [] => []
  | fuel + 1, l => l.take batchSize :: chunkFuel fuel (l.drop batchSize)

/-- Partition into order-preserving batches of at most batchSize texts. -/
def chunked (l : List (List Char)) : List (List (List Char)) :=
  chunkFuel l.length l

/-- Write translated values back into the eligible slots, in order; slots
that fail the eligibility filter keep their original text. -/
def applyTranslations : List (List Char) → List (List Char) → List (List Char)
  | [], _ => []
  | c :: cs, ts =>
      if should_translate c then
        match ts with
        | [] => c :: applyTranslations cs []
        | t :: ts2 => t :: applyTranslations cs ts2
      else c :: applyTranslations cs ts

/-- Outcome of processing one document: the name the output was saved
under, the final slot texts, and the number of batch translation calls. -/
structure FileRun where
  outputName : List Char
  cells : List (List Char)
  translateCalls : Nat
deriving DecidableEq

/-- Core of process_excel_file (translator.py lines 473-813) over the flat
list of slot texts: collect the slots passing should_translate, and if none
pass, save the workbook unchanged without any translation call (lines
645-655); otherwise translate batch by batch and write back. -/
def processExcelModel (filename : List Char) (cells : List (List Char))
    (provider : Nat → Nat → Option (List Char)) : FileRun :=
  let texts := (cells.filter should_translate).map clean_text
  if texts.isEmpty then
    ⟨excelOutputName filename, cells, 0⟩
  else
    let batches := chunked texts
    let translated :=
      (batches.enum.map (fun ib => (translate_batch ib.2 (provider ib.1)).result)).flatten
    ⟨excelOutputName filename, applyTranslations cells translated, batches.length⟩

/-- One character of the regex class \w (ASCII view), used by the safe
file-name sanitizer. -/
def isWordChar (c : Char) : Bool :=
  c.isAlphanum || c = '_'

/-- re.sub of every character outside \w and hyphen by an underscore. -/
def sanitizeChar (c : Char) : Char :=
  if isWordChar c || c = '-' then c else '_'

/-- re.sub collapsing runs of underscores into one underscore (the last
underscore of each run is the one kept). -/
def collapseU : List Char → List Char
  | [] => []
  | c :: s =>
      if c = '_' ∧ (collapseU s).head? = some '_' then collapseU s
      else c :: collapseU s

/-- Characters other than the underscore; the sanitizer's rewriting and the
underscore collapsing and stripping leave their count unchanged. -/
def notUnderscore (c : Char) : Bool :=
  !(c == '_')

/-- Python value.strip of the underscore character, both ends. -/
def stripUnderscores (s : List Char) : List Char :=
  dropTrailing (fun c => c = '_') (s.dropWhile (fun c => c = '_'))

/-- Output file name of process_powerpoint_file_basic (translator.py lines
1879-1894): TRANSLATED_ plus the sanitized stem, an underscore, the
timestamp, then the original extension. -/
def pptBasicOutputName (filename timestamp : List Char) : List Char :=
  "TRANSLATED_".toList ++
    stripUnderscores (collapseU ((pySplitExt filename).1.map sanitizeChar)) ++
    '_' :: timestamp ++ (pySplitExt filename).2

/-- Output path of process_powerpoint_file_basic (translator.py lines
1890-1894): like the Excel path it is always script-dir/output plus the
format-specific name; the --output-dir argument is never forwarded here
either, so it is an unused parameter. -/
def pptBasicOutputPath (scriptDir : List Char) (_outputDirArg : Option (List Char))
    (filename timestamp : List Char) : List Char :=
  scriptDir ++ "/output".toList ++ '/' :: pptBasicOutputName filename timestamp

/-- Core of process_powerpoint_file_basic (translator.py lines 1857-2089)
over the flat list of slot texts, mirroring the Excel pipeline: with zero
eligible slots the presentation is saved unchanged and no translation call
is made (lines 1984-1992). -/
def processPowerPointBasicModel (filename timestamp : List Char)
    (cells : List (List Char)) (provider : Nat → Nat → Option (List Char)) :
    FileRun :=
  let texts := (cells.filter should_translate).map clean_text
  if texts.isEmpty then
    ⟨pptBasicOutputName filename timestamp, cells, 0⟩
  else
    let batches := chunked texts
    let translated :=
      (batches.enum.map (fun ib => (translate_batch ib.2 (provider ib.1)).result)).flatten
    ⟨pptBasicOutputName filename timestamp, applyTranslations cells translated,
      batches.length⟩

/-- Outcome of _extract_with_com_automation_only: the elements returned,
whether the PowerPoint automation application was started, and whether it
was quit again before returning. -/
structure ComExtractRun where
  elements : List Fragment
  appAcquired : Bool
  appReleased : Bool
deriving DecidableEq

/-- _extract_with_com_automation_only (translator.py lines 1093-1160).
body models the slide/shape iteration between Presentations.Open (line
1108) and presentation.Close / ppt_app.Quit (lines 1152-1153): ok carries
the fully collected elements, error carries the elements collected before
an exception was raised mid-iteration.  The except handler at line 1157
only logs and falls through to the return, so Close/Quit run on the normal
path only. -/
def extractWithComOnly (hasCom isWindows : Bool)
    (body : Except (List Fragment) (List Fragment)) : ComExtractRun :=
  if hasCom && isWindows then
    match body with
    | .ok els => ⟨els, true, true⟩
    | .error els => ⟨els, true, false⟩
  else ⟨[], false, false⟩

/-! Helper lemmas about the whitespace tokenizer. -/

theorem pySplitAux_append_nonspace (t : List Char)
    (ht : ∀ c ∈ t, isPySpace c = false) :
    ∀ (s acc : List Char), pySplitAux (t ++ s) acc = pySplitAux s (t.reverse ++ acc) := by
  induction t with
  | nil => intro s acc; simp
  | cons c t ih =>
      intro s acc
      have hc : isPySpace c = false := ht c (by simp)
      have ht2 : ∀ x ∈ t, isPySpace x = false := fun x hx => ht x (by simp [hx])
      simp [pySplitAux, hc, ih ht2, List.append_assoc]

theorem pySplitAux_good : ∀ (s acc : List Char),
    (∀ c ∈ acc, isPySpace c = false) →
    ∀ t ∈ pySplitAux s acc, t ≠ [] ∧ ∀ c ∈ t, isPySpace c = false := by
  intro s
  induction s with
  | nil =>
      intro acc hacc t ht
      by_cases h : acc = []
      · simp [pySplitAux, h] at ht
      · simp [pySplitAux, h] at ht
        subst ht
        refine ⟨by simpa using h, fun c hc => hacc c (by simpa using hc)⟩
  | cons c s ih =>
      intro acc hacc t ht
      by_cases hsp : isPySpace c = true
      · by_cases h : acc = []
        · simp [pySplitAux, hsp, h] at ht
          exact ih [] (by simp) t ht
        · simp [pySplitAux, hsp, h] at ht
          rcases ht with ht | ht
          · subst ht
            exact ⟨by simpa using h, fun x hx => hacc x (by simpa using hx)⟩
          · exact ih [] (by simp) t ht
      · have hsp2 : isPySpace c = false := by simpa using hsp
        simp [pySplitAux, hsp2] at ht
        refine ih (c :: acc) ?_ t ht
        intro x hx
        rcases List.mem_cons.mp hx with hx | hx
        · subst hx; exact hsp2
        · exact hacc x hx

theorem pySplitWs_good (s : List Char) :
    ∀ t ∈ pySplitWs s, t ≠ [] ∧ ∀ c ∈ t, isPySpace c = false :=
  pySplitAux_good s [] (by simp)

theorem pySplitWs_joinSp (ts : List (List Char))
    (hne : ∀ t ∈ ts, t ≠ []) (hns : ∀ t ∈ ts, ∀ c ∈ t, isPySpace c = false) :
    pySplitWs (joinSp ts) = ts := by
  induction ts with
  | nil => rfl
  | cons t ts ih =>
      cases ts with
      | nil =>
          have h1 : t ≠ [] := hne t (by simp)
          have h2 : ∀ c ∈ t, isPySpace c = false := hns t (by simp)
          have h3 := pySplitAux_append_nonspace t h2 [] []
          simp only [List.append_nil] at h3
          simp only [joinSp, pySplitWs]
          rw [h3]
          simp [pySplitAux, h1]
      | cons t2 ts2 =>
          have h1 : t ≠ [] := hne t (by simp)
          have h2 : ∀ c ∈ t, isPySpace c = false := hns t (by simp)
          have hne2 : ∀ x ∈ t2 :: ts2, x ≠ [] := fun x hx => hne x (by simp [hx])
          have hns2 : ∀ x ∈ t2 :: ts2, ∀ c ∈ x, isPySpace c = false :=
            fun x hx => hns x (by simp [hx])
          have hrec := ih hne2 hns2
          have hsp : isPySpace ' ' = true := by decide
          simp only [pySplitWs] at hrec ⊢
          simp only [joinSp]
          rw [pySplitAux_append_nonspace t h2]
          simp [pySplitAux, hsp, h1, hrec]

theorem joinSp_head_nonspace (ts : List (List Char)) (hts : ts ≠ [])
    (hne : ∀ t ∈ ts, t ≠ []) (hns : ∀ t ∈ ts, ∀ c ∈ t, isPySpace c = false) :
    ∃ c j, joinSp ts = c :: j ∧ isPySpace c = false := by
  cases ts with
  | nil => exact absurd rfl hts
  | cons t ts =>
      cases ht : t with
      | nil => exact absurd ht (hne t (by simp))
      | cons c t2 =>
          have hc : isPySpace c = false := hns t (by simp) c (by simp [ht])
          cases ts with
          | nil => exact ⟨c, t2, by simp [joinSp, ht], hc⟩
          | cons u us => exact ⟨c, t2 ++ ' ' :: joinSp (u :: us), by simp [joinSp, ht], hc⟩

theorem joinSp_last_nonspace (ts : List (List Char)) (hts : ts ≠ [])
    (hne : ∀ t ∈ ts, t ≠ []) (hns : ∀ t ∈ ts, ∀ c ∈ t, isPySpace c = false) :
    ∃ c j, (joinSp ts).reverse = c :: j ∧ isPySpace c = false := by
  induction ts with
  | nil => exact absurd rfl hts
  | cons t ts ih =>
      cases ts with
      | nil =>
          have h1 : t ≠ [] := hne t (by simp)
          have hrev : t.reverse ≠ [] := by simpa using h1
          cases hr : t.reverse with
          | nil => exact absurd hr hrev
          | cons c j =>
              have hc : c ∈ t := by
                have : c ∈ t.reverse := by simp [hr]
                simpa using this
              exact ⟨c, j, by simp [joinSp, hr], hns t (by simp) c hc⟩
      | cons t2 ts2 =>
          have hne2 : ∀ x ∈ t2 :: ts2, x ≠ [] := fun x hx => hne x (by simp [hx])
          have hns2 : ∀ x ∈ t2 :: ts2, ∀ c ∈ x, isPySpace c = false :=
            fun x hx => hns x (by simp [hx])
          rcases ih (by simp) hne2 hns2 with ⟨c, j, hj, hc⟩
          refine ⟨c, j ++ ' ' :: t.reverse, ?_, hc⟩
          simp only [joinSp]
          rw [List.reverse_append, List.reverse_cons]
          rw [hj]
          simp

theorem dropTrailing_append_last (p : Char → Bool) (j : List Char) (c : Char)
    (hc : p c = false) : dropTrailing p (j ++ [c]) = j ++ [c] := by
  induction j with
  | nil => simp [dropTrailing, hc]
  | cons d j ih =>
      simp only [List.cons_append, dropTrailing, List.append_eq]
      simp [ih]

theorem pyStrip_of_good (l : List Char)
    (hhead : ∀ (c : Char) (j : List Char), l = c :: j → isPySpace c = false)
    (hlast : ∀ (c : Char) (j : List Char), l.reverse = c :: j → isPySpace c = false) :
    pyStrip l = l := by
  cases hl : l with
  | nil => simp [pyStrip, dropTrailing]
  | cons c j =>
      have hc : isPySpace c = false := hhead c j hl
      have hdrop : (c :: j).dropWhile isPySpace = c :: j := by
        simp [List.dropWhile_cons, hc]
      have hrev : l.reverse ≠ [] := by simp [hl]
      cases hr : l.reverse with
      | nil => exact absurd hr hrev
      | cons d k =>
          have hd : isPySpace d = false := hlast d k hr
          have hform : c :: j = k.reverse ++ [d] := by
            have : l = (d :: k).reverse := by rw [← hr]; simp
            rw [hl] at this
            simpa using this
          rw [pyStrip, hdrop, hform]
          exact dropTrailing_append_last _ _ _ hd

theorem clean_text_eq_joinSp (s : List Char) :
    clean_text s = joinSp (pySplitWs s) := by
  have hgood := pySplitWs_good s
  have hne : ∀ t ∈ pySplitWs s, t ≠ [] := fun t ht => (hgood t ht).1
  have hns : ∀ t ∈ pySplitWs s, ∀ c ∈ t, isPySpace c = false :=
    fun t ht => (hgood t ht).2
  rw [clean_text]
  by_cases hts : pySplitWs s = []
  · simp [hts, joinSp, pyStrip, dropTrailing]
  · apply pyStrip_of_good
    · intro c j hj
      rcases joinSp_head_nonspace (pySplitWs s) hts hne hns with ⟨c2, j2, he, hc2⟩
      rw [hj] at he
      cases he
      exact hc2
    · intro c j hj
      rcases joinSp_last_nonspace (pySplitWs s) hts hne hns with ⟨c2, j2, he, hc2⟩
      rw [hj] at he
      cases he
      exact hc2

theorem clean_text_idempotent (s : List Char) :
    clean_text (clean_text s) = clean_text s := by
  have hgood := pySplitWs_good s
  have hne : ∀ t ∈ pySplitWs s, t ≠ [] := fun t ht => (hgood t ht).1
  have hns : ∀ t ∈ pySplitWs s, ∀ c ∈ t, isPySpace c = false :=
    fun t ht => (hgood t ht).2
  rw [clean_text_eq_joinSp s, clean_text_eq_joinSp (joinSp (pySplitWs s))]
  rw [pySplitWs_joinSp (pySplitWs s) hne hns]

theorem shouldTranslateChecks_false_iff (t : List Char) :
    shouldTranslateChecks t = false ↔
      (t.length < 2 ∨ matchesNumericOnly t = true ∨ startsWithEqSign t = true) := by
  unfold shouldTranslateChecks
  by_cases h1 : (t.isEmpty || t.length < 2) = true
  · have hlen : t.length < 2 := by
      rcases Bool.or_eq_true_iff.mp h1 with h | h
      · have ht : t = [] := by simpa [List.isEmpty_iff] using h
        simp [ht]
      · simpa using h
    simp [h1, hlen]
  · have h1l : ¬ t.length < 2 := fun hl => h1 (by simp [hl])
    by_cases h2 : matchesNumericOnly t = true
    · simp [h1, h2]
    · by_cases h3 : startsWithEqSign t = true
      · simp [h1, h2, h3]
      · have hne : t ≠ [] := by
          intro he
          exact h1l (by simp [he])
        simp [h1, h2, h3, h1l, hne]

/-- C2, counterexample: on the string made of a space, an equals sign and a
letter, should_translate returns false, yet none of the three rejection
conditions as the claim words them holds of s itself (the normalized form
has length two, s does not match the numeric regex, and s starts with a
space, not with an equals sign): the code applies the regex test and the
leading-equals test to the normalized text, not to s. -/
theorem should_translate_spec_mismatch_c2 :
    should_translate (' ' :: '=' :: 'A' :: []) = false ∧
      specRejects (' ' :: '=' :: 'A' :: []) = false := by
  decide

/-- C2, amended: should_translate s is false exactly when the
whitespace-normalized, trimmed form of s has length below two, or that
normalized form matches the numeric-only regex, or that normalized form
starts with an equals sign; the four quoted examples behave as listed. -/
theorem should_translate_characterization_c2 :
    (∀ s : List Char, should_translate s = false ↔
      ((clean_text s).length < 2 ∨ matchesNumericOnly (clean_text s) = true ∨
        startsWithEqSign (clean_text s) = true)) ∧
    should_translate "Hello".toList = true ∧
    should_translate "123,456".toList = false ∧
    should_translate "=SUM(A1:A2)".toList = false ∧
    should_translate "A".toList = false := by
  refine ⟨fun s => ?_, by decide, by decide, by decide, by decide⟩
  exact shouldTranslateChecks_false_iff (clean_text s)

/-- C9: clean_text is idempotent, and the eligibility filter is invariant
under normalization, so re-filtering already-normalized extracted text
never changes its eligibility. -/
theorem clean_text_idem_filter_invariant_c9 (s : List Char) :
    clean_text (clean_text s) = clean_text s ∧
      should_translate (clean_text s) = should_translate s := by
  refine ⟨clean_text_idempotent s, ?_⟩
  unfold should_translate
  rw [clean_text_idempotent s]

/-! Lemmas about the translation batcher. -/

theorem reconcileParts_length (texts parts : List (List Char)) :
    (reconcileParts texts parts).length = texts.length := by
  unfold reconcileParts
  split_ifs with h
  · simp only [List.length_append, List.length_drop]
    omega
  · simp only [List.length_take]
    omega

theorem runBatchLoop_result_length (texts : List (List Char))
    (provider : Nat → Option (List Char)) :
    ∀ (fuel r : Nat),
      ((runBatchLoop texts provider r fuel).result).length = texts.length := by
  intro fuel
  induction fuel with
  | zero => intro r; rfl
  | succ fuel ih =>
      intro r
      cases hp : provider r with
      | none =>
          by_cases hr : r + 1 > maxRetries
          · simp [runBatchLoop, hp, hr]
          · simp [runBatchLoop, hp, hr, ih]
      | some reply =>
          by_cases he : reply.isEmpty = true
          · by_cases hr : r + 1 > maxRetries
            · simp [runBatchLoop, hp, he, hr]
            · simp [runBatchLoop, hp, he, hr, ih]
          · simp [runBatchLoop, hp, he, reconcileParts_length]

/-- C1: translate_batch always returns exactly one output per input text:
an empty input gives an empty output with no call made; every run returns a
list of exactly the input length; a call that succeeds immediately returns
the delimiter-split reply reconciled against the inputs; and the
reconciliation keeps each returned segment at its own position, fills
missing trailing positions with the corresponding original input texts,
and drops extra segments. -/
theorem translate_batch_alignment_c1 :
    (∀ provider, translate_batch [] provider = ⟨[], 0, []⟩) ∧
    (∀ (texts : List (List Char)) (provider : Nat → Option (List Char)),
      ((translate_batch texts provider).result).length = texts.length) ∧
    (∀ (texts : List (List Char)) (provider : Nat → Option (List Char))
        (reply : List Char),
      texts ≠ [] → reply ≠ [] → provider 0 = some reply →
      (translate_batch texts provider).result =
        reconcileParts texts (splitDelim reply)) ∧
    (∀ (texts parts : List (List Char)) (i : Nat), i < texts.length →
      (reconcileParts texts parts)[i]? =
        if i < parts.length then parts[i]? else texts[i]?) := by
  refine ⟨fun provider => rfl, ?_, ?_, ?_⟩
  · intro texts provider
    by_cases ht : texts.isEmpty = true
    · have : texts = [] := by simpa [List.isEmpty_iff] using ht
      simp [translate_batch, ht, this]
    · simp only [translate_batch, ht, if_false, Bool.false_eq_true]
      exact runBatchLoop_result_length texts provider (maxRetries + 1) 0
  · intro texts provider reply ht hr hp
    have hte : texts.isEmpty = false := by
      cases texts with
      | nil => exact absurd rfl ht
      | cons a b => rfl
    have hre : reply.isEmpty = false := by
      cases reply with
      | nil => exact absurd rfl hr
      | cons a b => rfl
    simp [translate_batch, hte, maxRetries, runBatchLoop, hp, hre]
  · intro texts parts i hi
    unfold reconcileParts
    by_cases hip : i < parts.length
    · rw [if_pos hip]
      by_cases h : parts.length < texts.length
      · rw [if_pos h, List.getElem?_append_left hip]
      · rw [if_neg h]
        exact List.getElem?_take_of_lt hi
    · rw [if_neg hip]
      by_cases h : parts.length < texts.length
      · rw [if_pos h, List.getElem?_append_right (Nat.le_of_not_lt hip),
          List.getElem?_drop]
        congr 1
        omega
      · exact (hip (by omega)).elim

/-- Witness for the C1 alignment theorem at concrete inputs: two input
texts against a three-segment reply, and position one of a reconciliation
against a one-segment reply. -/
theorem translate_batch_alignment_c1_witness :
    (translate_batch [['a', 'b'], ['c', 'd']]
        (fun _ => some ('X' :: '|' :: '|' :: '|' :: 'Y' :: '|' :: '|' :: '|' :: 'Z' :: []))).result
      = reconcileParts [['a', 'b'], ['c', 'd']]
          (splitDelim ('X' :: '|' :: '|' :: '|' :: 'Y' :: '|' :: '|' :: '|' :: 'Z' :: [])) ∧
    (reconcileParts [['a', 'b'], ['c', 'd']] [['X']])[1]? = some ['c', 'd'] := by
  constructor
  · exact translate_batch_alignment_c1.2.2.1 _ _ _ (by decide) (by decide) rfl
  · have h := translate_batch_alignment_c1.2.2.2 [['a', 'b'], ['c', 'd']] [['X']] 1
      (by decide)
    simpa using h

/-- C3: a provider that fails twice then succeeds yields the reconciled
translation after exactly three call attempts, having slept the linearly
increasing backoffs 2 and 4 seconds; a provider that always fails makes the
initial attempt plus the three retries of the budget (four calls, backoffs
2, 4, 6) and then returns the original input texts unchanged. -/
theorem translate_batch_retry_c3 :
    (∀ (texts : List (List Char)) (provider : Nat → Option (List Char))
        (reply : List Char),
      texts ≠ [] → reply ≠ [] →
      provider 0 = none → provider 1 = none → provider 2 = some reply →
      translate_batch texts provider =
        ⟨reconcileParts texts (splitDelim reply), 3, [2, 4]⟩) ∧
    (∀ (texts : List (List Char)) (provider : Nat → Option (List Char)),
      texts ≠ [] → (∀ k, provider k = none) →
      translate_batch texts provider = ⟨texts, 4, [2, 4, 6]⟩) := by
  constructor
  · intro texts provider reply ht hr h0 h1 h2
    have hte : texts.isEmpty = false := by
      cases texts with
      | nil => exact absurd rfl ht
      | cons a b => rfl
    have hre : reply.isEmpty = false := by
      cases reply with
      | nil => exact absurd rfl hr
      | cons a b => rfl
    simp [translate_batch, hte, maxRetries, runBatchLoop, h0, h1, h2, hre]
  · intro texts provider ht hall
    have hte : texts.isEmpty = false := by
      cases texts with
      | nil => exact absurd rfl ht
      | cons a b => rfl
    simp [translate_batch, hte, maxRetries, runBatchLoop, hall]

/-- Witness for the C3 retry theorem: a provider failing on its first two
calls then succeeding, and a provider that never succeeds. -/
theorem translate_batch_retry_c3_witness :
    translate_batch [['h', 'i']] (fun k => if k < 2 then none else some ['O', 'K'])
      = ⟨reconcileParts [['h', 'i']] (splitDelim ['O', 'K']), 3, [2, 4]⟩ ∧
    translate_batch [['h', 'i']] (fun _ => none) = ⟨[['h', 'i']], 4, [2, 4, 6]⟩ := by
  constructor
  · exact translate_batch_retry_c3.1 _ _ _ (by decide) (by decide)
      (by decide) (by decide) (by decide)
  · exact translate_batch_retry_c3.2 _ _ (by decide) (fun k => rfl)

/-- C4, counterexample: with the baseline engine yielding fragments at
locations 0 and 1 and the second engine yielding fragments at locations 1
and 2, the merged list handed to translation keeps both fragments at
location 1, so it is not true that at most one fragment per location
survives: no deduplication by location happens between extraction and
translation. -/
theorem hybrid_merge_no_dedup_c4 :
    hybridMerge [⟨0, ['A']⟩, ⟨1, ['B']⟩] [⟨1, ['B']⟩, ⟨2, ['C']⟩] [] true false
      = [⟨0, ['A']⟩, ⟨1, ['B']⟩, ⟨1, ['B']⟩, ⟨2, ['C']⟩] ∧
    (hybridMerge [⟨0, ['A']⟩, ⟨1, ['B']⟩] [⟨1, ['B']⟩, ⟨2, ['C']⟩] [] true false).countP
        (fun fr => fr.loc == 1) = 2 := by
  decide

/-- C4, amended: the merged fragment list handed to translation is the
plain concatenation of the extractor outputs in engine order; fragments
whose LocationReference was already produced by an earlier engine are kept,
so every location occurs exactly as often as the engines together produced
it. -/
theorem hybrid_merge_concat_c4 (basic com xml : List Fragment) :
    hybridMerge basic com xml true true = basic ++ com ++ xml ∧
    ∀ p : Fragment → Bool,
      (hybridMerge basic com xml true true).countP p =
        basic.countP p + com.countP p + xml.countP p := by
  constructor
  · simp [hybridMerge]
  · intro p
    simp [hybridMerge, List.countP_append]
    omega

/-- C5, counterexample: in directory mode with an existing directory, the
entry point returns 0 both when the only found file failed and when no
files were found at all, although the claim requires exit code 1 whenever
no file was processed successfully. -/
theorem main_exit_zero_without_success_c5 :
    mainExitCode (.directory true 0 1) = 0 ∧
      mainExitCode (.directory true 0 0) = 0 := by
  decide

/-- C5, amended: the entry point exits 0 whenever at least one file was
processed successfully; in single-file mode it exits 0 exactly when the
named file exists and was processed, and 1 otherwise; but in directory mode
it exits 0 exactly when the named directory exists, regardless of how many
files were found or how many failed. -/
theorem main_exit_code_c5 (ex ok isDir : Bool) (s f : Nat) :
    (mainExitCode (.singleFile ex ok) = 0 ↔ (ex = true ∧ ok = true)) ∧
    (mainExitCode (.directory isDir s f) = 0 ↔ isDir = true) ∧
    (1 ≤ s → mainExitCode (.directory true s f) = 0) := by
  refine ⟨?_, ?_, fun _ => rfl⟩
  · cases ex <;> cases ok <;> simp [mainExitCode]
  · cases isDir <;> simp [mainExitCode]

/-- Witness for the C5 exit-code theorem: an existing processed file and a
directory run with one success. -/
theorem main_exit_code_c5_witness :
    mainExitCode (.singleFile true true) = 0 ∧
      mainExitCode (.directory true 1 0) = 0 :=
  ⟨(main_exit_code_c5 true true true 1 0).1.mpr ⟨rfl, rfl⟩,
    (main_exit_code_c5 true true true 1 0).2.2 (by decide)⟩

/-! Lemmas about extension splitting and output paths. -/

theorem extSplitRev_spec : ∀ (l p r : List Char),
    extSplitRev l = some (p, r) → l = p ++ '.' :: r := by
  intro l
  induction l with
  | nil => intro p r h; simp [extSplitRev] at h
  | cons c rest ih =>
      intro p r h
      by_cases hc : c = '.'
      · rw [extSplitRev, if_pos hc] at h
        cases h
        simp [hc]
      · rw [extSplitRev, if_neg hc] at h
        cases he : extSplitRev rest with
        | none => rw [he] at h; cases h
        | some pq =>
            rw [he] at h
            simp at h
            obtain ⟨hp, hr⟩ := h
            subst hp
            subst hr
            have hrec := ih pq.1 pq.2 (by rw [he])
            simp [hrec]

theorem extSplitRev_append_dot (p r : List Char) (hp : ∀ c ∈ p, c ≠ '.') :
    extSplitRev (p ++ '.' :: r) = some (p, r) := by
  induction p with
  | nil => simp [extSplitRev]
  | cons c p ih =>
      have hc : c ≠ '.' := hp c (by simp)
      have hp2 : ∀ x ∈ p, x ≠ '.' := fun x hx => hp x (by simp [hx])
      simp [extSplitRev, hc, ih hp2]

theorem pySplitExt_concat (n : List Char) :
    (pySplitExt n).1 ++ (pySplitExt n).2 = n := by
  unfold pySplitExt
  cases he : extSplitRev n.reverse with
  | none => simp
  | some pq =>
      by_cases hd : pq.2.all (fun c => c = '.') = true
      · simp [hd]
      · have hs := extSplitRev_spec n.reverse pq.1 pq.2 (by rw [he])
        have hn : n = pq.2.reverse ++ '.' :: pq.1.reverse := by
          have h2 := congrArg List.reverse hs
          simpa using h2
        simp [hd]
        exact hn.symm

theorem pySplitExt_base_mem {n : List Char} {c : Char}
    (h : c ∈ (pySplitExt n).1) : c ∈ n := by
  unfold pySplitExt at h
  cases he : extSplitRev n.reverse with
  | none => rw [he] at h; simpa using h
  | some pq =>
      rw [he] at h
      by_cases hd : pq.2.all (fun x => x = '.') = true
      · simp [hd] at h; exact h
      · simp [hd] at h
        have hs := extSplitRev_spec n.reverse pq.1 pq.2 (by rw [he])
        have : c ∈ n.reverse := by
          rw [hs]
          simp [h]
        simpa using this

theorem pySplitExt_ext_mem {n : List Char} {c : Char}
    (h : c ∈ (pySplitExt n).2) : c = '.' ∨ c ∈ n := by
  unfold pySplitExt at h
  cases he : extSplitRev n.reverse with
  | none => rw [he] at h; simp at h
  | some pq =>
      rw [he] at h
      by_cases hd : pq.2.all (fun x => x = '.') = true
      · simp [hd] at h
      · simp [hd] at h
        rcases h with h | h
        · exact Or.inl h
        · refine Or.inr ?_
          have hs := extSplitRev_spec n.reverse pq.1 pq.2 (by rw [he])
          have : c ∈ n.reverse := by
            rw [hs]
            simp [h]
          simpa using this

theorem takeWhile_append_stop (p : Char → Bool) (l : List Char) (c : Char)
    (t : List Char) (hl : ∀ x ∈ l, p x = true) (hc : p c = false) :
    (l ++ c :: t).takeWhile p = l := by
  induction l with
  | nil => simp [List.takeWhile_cons, hc]
  | cons d l ih =>
      have hd : p d = true := hl d (by simp)
      simp [List.takeWhile_cons, hd, ih (fun x hx => hl x (by simp [hx]))]

theorem last_component_eq {a b x y : List Char}
    (hx : ∀ c ∈ x, c ≠ '/') (hy : ∀ c ∈ y, c ≠ '/')
    (h : a ++ '/' :: x = b ++ '/' :: y) : x = y := by
  have hrev := congrArg List.reverse h
  simp only [List.reverse_append, List.reverse_cons] at hrev
  have hx2 : ∀ c ∈ x.reverse, (!(c == '/')) = true := by
    intro c hc
    have := hx c (by simpa using hc)
    simpa using this
  have hy2 : ∀ c ∈ y.reverse, (!(c == '/')) = true := by
    intro c hc
    have := hy c (by simpa using hc)
    simpa using this
  have hsl : (!(('/' : Char) == '/')) = false := by decide
  have h1 := takeWhile_append_stop (fun c => !(c == '/')) x.reverse '/' a.reverse hx2 hsl
  have h2 := takeWhile_append_stop (fun c => !(c == '/')) y.reverse '/' b.reverse hy2 hsl
  have h3 : x.reverse = y.reverse := by
    rw [← h1, ← h2]
    simp only [List.append_assoc, List.singleton_append] at hrev ⊢
    rw [hrev]
  have := congrArg List.reverse h3
  simpa using this

theorem excelOutputName_length (filename : List Char) :
    (excelOutputName filename).length = filename.length + 11 := by
  have hc := congrArg List.length (pySplitExt_concat filename)
  simp only [List.length_append] at hc
  have h11 : ("-translated".toList).length = 11 := by decide
  simp only [excelOutputName, List.length_append, h11]
  omega

theorem excelOutputName_no_slash (filename : List Char)
    (hf : ∀ c ∈ filename, c ≠ '/') :
    ∀ c ∈ excelOutputName filename, c ≠ '/' := by
  intro c hc
  unfold excelOutputName at hc
  simp only [List.mem_append] at hc
  rcases hc with (hc | hc) | hc
  · exact hf c (pySplitExt_base_mem hc)
  · intro he
    subst he
    revert hc
    decide
  · rcases pySplitExt_ext_mem hc with h | h
    · simp [h]
    · exact hf c h

/-! Lemmas about the sanitized PowerPoint output name: the underscore
collapsing and stripping and the sanitizer keep every non-underscore
character count, which rules out a fixed point of the naming scheme. -/

theorem countP_notUnderscore_collapseU (l : List Char) :
    (collapseU l).countP notUnderscore = l.countP notUnderscore := by
  induction l with
  | nil => rfl
  | cons c s ih =>
      by_cases h : c = '_' ∧ (collapseU s).head? = some '_'
      · simp only [collapseU, if_pos h]
        rw [ih, List.countP_cons]
        obtain ⟨hc, -⟩ := h
        subst hc
        simp [notUnderscore]
      · simp only [collapseU, if_neg h]
        rw [List.countP_cons, List.countP_cons, ih]

theorem countP_notUnderscore_dropWhile (l : List Char) :
    (l.dropWhile (fun c => c = '_')).countP notUnderscore
      = l.countP notUnderscore := by
  induction l with
  | nil => rfl
  | cons c s ih =>
      by_cases h : c = '_'
      · subst h
        rw [List.dropWhile_cons_of_pos (by simp)]
        rw [ih, List.countP_cons]
        simp [notUnderscore]
      · rw [List.dropWhile_cons_of_neg (by simp [h])]

theorem countP_notUnderscore_dropTrailing (l : List Char) :
    (dropTrailing (fun c => c = '_') l).countP notUnderscore
      = l.countP notUnderscore := by
  induction l with
  | nil => rfl
  | cons c s ih =>
      simp only [dropTrailing]
      split_ifs with hcond
      · rcases Bool.and_eq_true _ _ |>.mp hcond with ⟨h1, h2⟩
        have hdt : dropTrailing (fun x => x = '_') s = [] := by simpa using h1
        have hc : c = '_' := by simpa using h2
        have hs : s.countP notUnderscore = 0 := by rw [← ih, hdt]; rfl
        subst hc
        simp [List.countP_cons, notUnderscore, hs]
      · rw [List.countP_cons, List.countP_cons, ih]

theorem mem_collapseU : ∀ (l : List Char) (c : Char), c ∈ collapseU l → c ∈ l := by
  intro l
  induction l with
  | nil => intro c h; simp [collapseU] at h
  | cons d s ih =>
      intro c h
      by_cases hd : d = '_' ∧ (collapseU s).head? = some '_'
      · simp only [collapseU, if_pos hd] at h
        exact List.mem_cons_of_mem d (ih c h)
      · simp only [collapseU, if_neg hd] at h
        rcases List.mem_cons.mp h with h | h
        · simp [h]
        · exact List.mem_cons_of_mem d (ih c h)

theorem mem_dropTrailing (p : Char → Bool) :
    ∀ (l : List Char) (c : Char), c ∈ dropTrailing p l → c ∈ l := by
  intro l
  induction l with
  | nil => intro c h; simp [dropTrailing] at h
  | cons d s ih =>
      intro c h
      simp only [dropTrailing] at h
      split_ifs at h with hcond
      · simp at h
      · rcases List.mem_cons.mp h with h | h
        · simp [h]
        · exact List.mem_cons_of_mem d (ih c h)

theorem sanitizeChar_idem (c : Char) :
    sanitizeChar (sanitizeChar c) = sanitizeChar c := by
  by_cases h : (isWordChar c || c = '-') = true
  · have hc : sanitizeChar c = c := by simp [sanitizeChar, h]
    rw [hc]
    exact hc
  · have hc : sanitizeChar c = '_' := by simp [sanitizeChar, h]
    rw [hc]
    decide

theorem sanitizeChar_ne_slash (c : Char) : sanitizeChar c ≠ '/' := by
  by_cases h : (isWordChar c || c = '-') = true
  · have hc : sanitizeChar c = c := by simp [sanitizeChar, h]
    rw [hc]
    intro he
    subst he
    revert h
    decide
  · have hc : sanitizeChar c = '_' := by simp [sanitizeChar, h]
    rw [hc]
    decide

theorem safeName_mem_fix (base : List Char) :
    ∀ c ∈ stripUnderscores (collapseU (base.map sanitizeChar)),
      sanitizeChar c = c := by
  intro c hc
  unfold stripUnderscores at hc
  have h1 : c ∈ (collapseU (base.map sanitizeChar)).dropWhile (fun x => x = '_') :=
    mem_dropTrailing _ _ c hc
  have h2 : c ∈ collapseU (base.map sanitizeChar) :=
    (List.dropWhile_sublist _).subset h1
  have h3 : c ∈ base.map sanitizeChar := mem_collapseU _ c h2
  rcases List.mem_map.mp h3 with ⟨d, _, he⟩
  rw [← he]
  exact sanitizeChar_idem d

theorem countP_safeName (base : List Char) :
    (stripUnderscores (collapseU (base.map sanitizeChar))).countP notUnderscore
      = (base.map sanitizeChar).countP notUnderscore := by
  unfold stripUnderscores
  rw [countP_notUnderscore_dropTrailing, countP_notUnderscore_dropWhile,
    countP_notUnderscore_collapseU]

theorem pptBasicOutputName_ne_input (filename timestamp : List Char) :
    pptBasicOutputName filename timestamp ≠ filename := by
  intro h
  unfold pptBasicOutputName at h
  set base := (pySplitExt filename).1 with hbdef
  set ext := (pySplitExt filename).2 with hedef
  have hconcat : base ++ ext = filename := pySplitExt_concat filename
  rw [← hconcat] at h
  have h3 : ("TRANSLATED_".toList ++
      stripUnderscores (collapseU (base.map sanitizeChar)) ++ '_' :: timestamp)
      ++ ext = base ++ ext := by
    simpa [List.append_assoc] using h
  have h2 : "TRANSLATED_".toList ++
      stripUnderscores (collapseU (base.map sanitizeChar)) ++ '_' :: timestamp
      = base := List.append_cancel_right h3
  have hmapT : ("TRANSLATED_".toList).map sanitizeChar = "TRANSLATED_".toList := by
    decide
  have hmapS : (stripUnderscores (collapseU (base.map sanitizeChar))).map sanitizeChar
      = stripUnderscores (collapseU (base.map sanitizeChar)) := by
    have hfix := safeName_mem_fix base
    have hgid : (stripUnderscores (collapseU (base.map sanitizeChar))).map sanitizeChar
        = (stripUnderscores (collapseU (base.map sanitizeChar))).map id :=
      List.map_congr_left (fun a ha => hfix a ha)
    simpa using hgid
  have hbm : base.map sanitizeChar
      = "TRANSLATED_".toList ++
          stripUnderscores (collapseU (base.map sanitizeChar)) ++
          '_' :: timestamp.map sanitizeChar := by
    conv_lhs => rw [← h2]
    rw [List.map_append, List.map_append, hmapT, hmapS, List.map_cons]
    simp [show sanitizeChar '_' = '_' from by decide]
  have hcount := congrArg (List.countP notUnderscore) hbm
  rw [List.countP_append, List.countP_append, List.countP_cons] at hcount
  have hTn : ("TRANSLATED_".toList).countP notUnderscore = 10 := by decide
  have hU : (if notUnderscore '_' = true then 1 else 0) = 0 := by decide
  rw [countP_safeName, hTn, hU] at hcount
  omega

theorem pptBasicOutputName_no_slash (filename timestamp : List Char)
    (hf : ∀ c ∈ filename, c ≠ '/') (hts : ∀ c ∈ timestamp, c ≠ '/') :
    ∀ c ∈ pptBasicOutputName filename timestamp, c ≠ '/' := by
  intro c hc
  unfold pptBasicOutputName at hc
  simp only [List.mem_append, List.mem_cons, or_assoc] at hc
  rcases hc with hc | hc | hc | hc | hc
  · have hT : ∀ x ∈ "TRANSLATED_".toList, x ≠ '/' := by decide
    exact hT c hc
  · have h1 : c ∈ (collapseU ((pySplitExt filename).1.map sanitizeChar)).dropWhile
        (fun x => x = '_') := mem_dropTrailing _ _ c hc
    have h2 := (List.dropWhile_sublist _).subset h1
    have h3 := mem_collapseU _ c h2
    rcases List.mem_map.mp h3 with ⟨d, _, he⟩
    rw [← he]
    exact sanitizeChar_ne_slash d
  · subst hc
    decide
  · exact hts c hc
  · rcases pySplitExt_ext_mem hc with h | h
    · simp [h]
    · exact hf c h

/-- C6, counterexample: with --output-dir "custom" supplied, the Excel
processor still writes to the script-directory output folder: the output
path for book.xlsx is app/output/book-translated.xlsx and does not lie
under "custom", because main never passes the argument on (translator.py
lines 2574-2576 document this). -/
theorem output_dir_arg_unused_c6 :
    excelOutputPath "app".toList (some "custom".toList) "book.xlsx".toList
      = "app/output/book-translated.xlsx".toList ∧
    listBeginsWith "custom".toList
      (excelOutputPath "app".toList (some "custom".toList) "book.xlsx".toList)
      = false := by
  decide

/-- C6, amended: every successfully processed input file is written into
the script-directory output folder regardless of --output-dir (which main
only creates, never forwards), under its processor's format-specific name
(stem-translated for the Excel/Word scheme, TRANSLATED_stem_timestamp for
the basic PowerPoint scheme), and neither scheme can ever produce the
input file's own path. -/
theorem output_location_c6 (scriptDir inputDir filename timestamp : List Char)
    (o1 o2 : Option (List Char)) (hf : ∀ c ∈ filename, c ≠ '/')
    (hts : ∀ c ∈ timestamp, c ≠ '/') :
    excelOutputPath scriptDir o1 filename = excelOutputPath scriptDir o2 filename ∧
    pptBasicOutputPath scriptDir o1 filename timestamp
      = pptBasicOutputPath scriptDir o2 filename timestamp ∧
    excelOutputPath scriptDir o1 filename ≠ inputDir ++ '/' :: filename ∧
    pptBasicOutputPath scriptDir o1 filename timestamp
      ≠ inputDir ++ '/' :: filename := by
  refine ⟨rfl, rfl, ?_, ?_⟩
  · intro h
    unfold excelOutputPath at h
    rw [show scriptDir ++ "/output".toList ++ '/' :: excelOutputName filename
          = (scriptDir ++ "/output".toList) ++ '/' :: excelOutputName filename by
        simp [List.append_assoc]] at h
    have hout := last_component_eq (excelOutputName_no_slash filename hf) hf h
    have hlen := congrArg List.length hout
    rw [excelOutputName_length] at hlen
    omega
  · intro h
    unfold pptBasicOutputPath at h
    rw [show scriptDir ++ "/output".toList
            ++ '/' :: pptBasicOutputName filename timestamp
          = (scriptDir ++ "/output".toList)
            ++ '/' :: pptBasicOutputName filename timestamp by
        simp [List.append_assoc]] at h
    have hout := last_component_eq
      (pptBasicOutputName_no_slash filename timestamp hf hts) hf h
    exact pptBasicOutputName_ne_input filename timestamp hout

/-- Witness for the C6 output-location theorem at a concrete configuration:
an Excel input and a PowerPoint input, both with --output-dir supplied. -/
theorem output_location_c6_witness :
    excelOutputPath "app".toList (some "other".toList) "book.xlsx".toList
        = excelOutputPath "app".toList none "book.xlsx".toList ∧
    pptBasicOutputPath "app".toList (some "other".toList) "deck.pptx".toList
        "20250101_000000".toList
      = pptBasicOutputPath "app".toList none "deck.pptx".toList
          "20250101_000000".toList ∧
    excelOutputPath "app".toList (some "other".toList) "book.xlsx".toList
        ≠ "in".toList ++ '/' :: "book.xlsx".toList ∧
    pptBasicOutputPath "app".toList (some "other".toList) "deck.pptx".toList
        "20250101_000000".toList
      ≠ "in".toList ++ '/' :: "deck.pptx".toList := by
  have h := output_location_c6 "app".toList "in".toList "book.xlsx".toList
    "20250101_000000".toList (some "other".toList) none (by decide) (by decide)
  have h2 := output_location_c6 "app".toList "in".toList "deck.pptx".toList
    "20250101_000000".toList (some "other".toList) none (by decide) (by decide)
  exact ⟨h.1, h2.2.1, h.2.2.1, h2.2.2.2⟩

/-- C7: a document whose slots all fail the eligibility filter is still
processed successfully: the engine saves an unmodified copy under the usual
output name, rewrites no slot, and makes no translation call; this holds
for both the Excel pipeline and the basic PowerPoint pipeline. -/
theorem zero_fragment_passthrough_c7 (xlName pptName timestamp : List Char)
    (cells : List (List Char)) (provider pp : Nat → Nat → Option (List Char))
    (h : ∀ c ∈ cells, should_translate c = false) :
    processExcelModel xlName cells provider
      = ⟨excelOutputName xlName, cells, 0⟩ ∧
    processPowerPointBasicModel pptName timestamp cells pp
      = ⟨pptBasicOutputName pptName timestamp, cells, 0⟩ := by
  have hfil : cells.filter should_translate = [] := by
    rw [List.filter_eq_nil_iff]
    intro a ha
    simp [h a ha]
  constructor
  · simp [processExcelModel, hfil]
  · simp [processPowerPointBasicModel, hfil]

/-- Witness for the C7 passthrough theorem: a workbook holding a number, a
formula and a single letter, none of which is eligible. -/
theorem zero_fragment_passthrough_c7_witness :
    processExcelModel "book.xlsx".toList
        ["42".toList, "=SUM(A1:A2)".toList, "A".toList] (fun _ _ => none)
      = ⟨excelOutputName "book.xlsx".toList,
          ["42".toList, "=SUM(A1:A2)".toList, "A".toList], 0⟩ ∧
    processPowerPointBasicModel "deck.pptx".toList "20250101_000000".toList
        ["42".toList, "=SUM(A1:A2)".toList, "A".toList] (fun _ _ => none)
      = ⟨pptBasicOutputName "deck.pptx".toList "20250101_000000".toList,
          ["42".toList, "=SUM(A1:A2)".toList, "A".toList], 0⟩ :=
  zero_fragment_passthrough_c7 "book.xlsx".toList "deck.pptx".toList
    "20250101_000000".toList
    ["42".toList, "=SUM(A1:A2)".toList, "A".toList] (fun _ _ => none)
    (fun _ _ => none) (by decide)

/-- C8: evaluating the COM extraction path at the failing input.  When COM
and Windows are available and an exception is raised while iterating the
opened presentation, the function returns with the application handle
acquired but never released (Close/Quit at lines 1152-1153 sit inside the
try block and the except handler at line 1157 falls through to the
return), contradicting the claim that every handle is released on every
exit path; the normal path does release it. -/
theorem com_handle_leak_c8 :
    (extractWithComOnly true true (.error [⟨0, ['T']⟩])).appAcquired = true ∧
    (extractWithComOnly true true (.error [⟨0, ['T']⟩])).appReleased = false ∧
    (extractWithComOnly true true (.ok [⟨0, ['T']⟩])).appReleased = true := by
  decide

/-- C10: directory mode selects a file exactly when its name ends in one of
the six glob suffixes .xlsx .xls .docx .doc .pptx .ppt; and every name of
the form stem.xlsm (with a stem holding a character other than a dot) is
classified EXCEL by get_file_type, hence dispatched by single-file mode,
yet never selected in directory mode. -/
theorem dir_mode_xlsm_c10 :
    (∀ name : List Char, selectedInDirMode name = true ↔
      (endsWith ".xlsx".toList name = true ∨ endsWith ".xls".toList name = true ∨
       endsWith ".docx".toList name = true ∨ endsWith ".doc".toList name = true ∨
       endsWith ".pptx".toList name = true ∨ endsWith ".ppt".toList name = true)) ∧
    (∀ s : List Char, (∃ c ∈ s, c ≠ '.') →
      get_file_type (s ++ ".xlsm".toList) = DocType.EXCEL ∧
      processableSingleFile (s ++ ".xlsm".toList) = true ∧
      selectedInDirMode (s ++ ".xlsm".toList) = false) := by
  constructor
  · intro name
    simp [selectedInDirMode, dirModeExts, List.any_cons, List.any_nil]
  · intro s hs
    have hlit : (".xlsm".toList : List Char) = ['.', 'x', 'l', 's', 'm'] := rfl
    have hrev : (s ++ ".xlsm".toList).reverse
        = ['m', 's', 'l', 'x'] ++ '.' :: s.reverse := by
      rw [hlit]
      simp [List.reverse_append]
    have hesr : extSplitRev ((s ++ ".xlsm".toList).reverse)
        = some (['m', 's', 'l', 'x'], s.reverse) := by
      rw [hrev]
      exact extSplitRev_append_dot ['m', 's', 'l', 'x'] s.reverse (by decide)
    have hall : s.reverse.all (fun c => c = '.') = false := by
      rcases hs with ⟨c, hc, hcne⟩
      rw [List.all_eq_false]
      exact ⟨c, by simpa using hc, by simpa using hcne⟩
    have hsplit : (pySplitExt (s ++ ".xlsm".toList)).2 = ['.', 'x', 'l', 's', 'm'] := by
      unfold pySplitExt
      rw [hesr]
      simp [hall]
    have hgt : get_file_type (s ++ ".xlsm".toList) = DocType.EXCEL := by
      unfold get_file_type
      rw [hsplit]
      decide
    have hps : processableSingleFile (s ++ ".xlsm".toList) = true := by
      unfold processableSingleFile
      rw [hgt]
      rfl
    refine ⟨hgt, hps, ?_⟩
    have b1 : (('x' : Char) == 'm') = false := by decide
    have b2 : (('s' : Char) == 'm') = false := by decide
    have b3 : (('c' : Char) == 'm') = false := by decide
    have b4 : (('t' : Char) == 'm') = false := by decide
    have e1 : ((".xlsx".toList : List Char)).reverse = 'x' :: ['s', 'l', 'x', '.'] := rfl
    have e2 : ((".xls".toList : List Char)).reverse = 's' :: ['l', 'x', '.'] := rfl
    have e3 : ((".docx".toList : List Char)).reverse = 'x' :: ['c', 'o', 'd', '.'] := rfl
    have e4 : ((".doc".toList : List Char)).reverse = 'c' :: ['o', 'd', '.'] := rfl
    have e5 : ((".pptx".toList : List Char)).reverse = 'x' :: ['t', 'p', 'p', '.'] := rfl
    have e6 : ((".ppt".toList : List Char)).reverse = 't' :: ['p', 'p', '.'] := rfl
    have hrv : (s ++ ".xlsm".toList).reverse
        = 'm' :: ('s' :: 'l' :: 'x' :: '.' :: s.reverse) := by
      rw [hrev]
      rfl
    simp only [selectedInDirMode, dirModeExts, List.any_cons, List.any_nil,
      endsWith, hrv, e1, e2, e3, e4, e5, e6, listBeginsWith]
    simp [b1, b2, b3, b4]

/-- Witness for the C10 theorem: the concrete file name report.xlsm. -/
theorem dir_mode_xlsm_c10_witness :
    get_file_type ("report".toList ++ ".xlsm".toList) = DocType.EXCEL ∧
    processableSingleFile ("report".toList ++ ".xlsm".toList) = true ∧
    selectedInDirMode ("report".toList ++ ".xlsm".toList) = false :=
  dir_mode_xlsm_c10.2 "report".toList ⟨'r', by decide, by decide⟩

end OfficeTranslator
